import Mathlib

/-!
Verification of the leaf-region segmentation pipeline (`computeLeafCrops` and its
helpers, from `src/lib/leafCrops.ts`).

Modelling conventions:
* JavaScript numbers that hold integer values are modelled by `ℕ` / `ℤ`;
  fractional intermediate values (center coordinates, scale factors, the
  constants `1.2` and `0.01`) are modelled by `ℚ`. `Math.round` is
  `jsRound q = ⌊q + 1/2⌋` (round half towards positive infinity), which is the
  JavaScript semantics.
* Browser facilities (canvas contexts, the resampled pixel buffer produced by
  `drawImage`/`getImageData`, `toDataURL`) are modelled by an explicit
  environment record `Env`. Image decoding is modelled by an `Except` input:
  decode failure is the only exception that can reach the caller, everything
  after the decode is a total function.
* The flood fill of the connected-component labeler is written with an explicit
  stack and a fuel parameter; the fuel `W * H + 1` is shown to be sufficient in
  the lemmas below. A `visited : Finset ℕ` plays the role of the
  `visited : Uint8Array`, and each recorded component additionally carries the
  finite set `cells` of pixel indices that the loop popped for it (the pixels
  the algorithm assigns to that component), so that claims about pixel
  membership can be stated.
-/

namespace LeafCrops

/-- `clamp(value, min, max) = Math.max(min, Math.min(max, value))`. -/
def clamp (value lo hi : ℤ) : ℤ := max lo (min hi value)

/-- JavaScript `Math.round`: round half towards positive infinity. -/
def jsRound (q : ℚ) : ℤ := ⌊q + 1/2⌋

/-- Integer rectangle `{x, y, w, h}`. -/
structure BBoxI where
  x : ℤ
  y : ℤ
  w : ℤ
  h : ℤ
deriving DecidableEq, Repr

/-- `expandBBox` from the source: grow a box about its center by `factor`,
round, and clamp into `[0, maxW] × [0, maxH]`, forcing width and height to be
at least 1. -/
def expandBBox (bbox : BBoxI) (factor : ℚ) (maxW maxH : ℤ) : BBoxI :=
  let cx : ℚ := (bbox.x : ℚ) + (bbox.w : ℚ) / 2
  let cy : ℚ := (bbox.y : ℚ) + (bbox.h : ℚ) / 2
  let w : ℚ := (bbox.w : ℚ) * factor
  let h : ℚ := (bbox.h : ℚ) * factor
  let x := clamp (jsRound (cx - w / 2)) 0 (maxW - 1)
  let y := clamp (jsRound (cy - h / 2)) 0 (maxH - 1)
  let x2 := clamp (jsRound (cx + w / 2)) 0 maxW
  let y2 := clamp (jsRound (cy + h / 2)) 0 maxH
  ⟨x, y, max 1 (x2 - x), max 1 (y2 - y)⟩

/-- `isLikelyGreen` from the source: the per-pixel foreground classifier. -/
def isLikelyGreen (r g b : ℕ) : Bool :=
  if g < 50 then false
  else if g < r + 20 then false
  else if g < b + 15 then false
  else if r + g + b < 120 then false
  else true

/-- The predicate behind claims C3: a box lies inside the `maxW × maxH` frame
and has positive extent. -/
def bboxWithin (maxW maxH : ℤ) (bb : BBoxI) : Prop :=
  0 ≤ bb.x ∧ 0 ≤ bb.y ∧ bb.x + bb.w ≤ maxW ∧ bb.y + bb.h ≤ maxH ∧ 1 ≤ bb.w ∧ 1 ≤ bb.h

/-! ### The connected-component labeler, over an abstract `W × H` binary mask

The mask is a function `ℕ → Bool` on linear pixel indices (`idx = y * W + x`),
exactly the layout of the `Uint8Array` in the source. -/

/-- One labeled component. The fields `area, minX, minY, maxX, maxY` are the
ones the source records; `cells` additionally records the set of pixel indices
popped by the flood-fill loop for this component, i.e. the pixels the labeler
assigns to it. -/
structure Component where
  area : ℕ
  minX : ℕ
  minY : ℕ
  maxX : ℕ
  maxY : ℕ
  cells : Finset ℕ
deriving DecidableEq

/-- A pixel index is foreground: inside the raster and set in the mask. -/
def fg (W H : ℕ) (mask : ℕ → Bool) (i : ℕ) : Prop := i < W * H ∧ mask i = true

/-- Four-adjacency of two linear indices: their coordinates are at Manhattan
distance exactly 1. -/
def adjacent (W : ℕ) (a b : ℕ) : Prop :=
  (((a % W : ℕ) : ℤ) - ((b % W : ℕ) : ℤ)).natAbs
    + (((a / W : ℕ) : ℤ) - ((b / W : ℕ) : ℤ)).natAbs = 1

/-- One step along the foreground pixel graph. -/
def estep (W H : ℕ) (mask : ℕ → Bool) (a b : ℕ) : Prop :=
  fg W H mask a ∧ fg W H mask b ∧ adjacent W a b

/-- Connectivity: a chain of 4-adjacent foreground pixels. -/
def conn (W H : ℕ) (mask : ℕ → Bool) : ℕ → ℕ → Prop :=
  Relation.ReflTransGen (estep W H mask)

/-- The body of the `for (const n of neighbors)` loop: skip out-of-range
indices, skip candidates that are not genuine 4-neighbors (the wrap-around
guard), and push any unvisited mask pixel, marking it visited. `sv` is the
pair (stack, visited). -/
def pushNeighbor (W H : ℕ) (mask : ℕ → Bool) (cx cy : ℕ)
    (sv : List ℕ × Finset ℕ) (n : ℤ) : List ℕ × Finset ℕ :=
  if n < 0 ∨ (W * H : ℤ) ≤ n then sv
  else
    let m := n.toNat
    let nx := m % W
    let ny := m / W
    if ((nx : ℤ) - (cx : ℤ)).natAbs + ((ny : ℤ) - (cy : ℤ)).natAbs ≠ 1 then sv
    else if m ∉ sv.2 ∧ mask m then (m :: sv.1, insert m sv.2) else sv

/-- The linear-offset neighbor candidates `cur ± 1, cur ± W` of the source. -/
def neighList (W : ℕ) (cur : ℕ) : List ℤ :=
  [(cur : ℤ) - 1, (cur : ℤ) + 1, (cur : ℤ) - (W : ℤ), (cur : ℤ) + (W : ℤ)]

/-- The `while (stack.length)` loop of the flood fill, with explicit fuel.
Each iteration pops the top of the stack, counts it into the component
statistics, and pushes its unvisited foreground 4-neighbors. -/
def flood (W H : ℕ) (mask : ℕ → Bool) :
    ℕ → List ℕ → Finset ℕ → Component → Finset ℕ × Component
  | _, [], visited, s => (visited, s)
  | 0, _ :: _, visited, s => (visited, s)
  | fuel + 1, cur :: rest, visited, s =>
    let cx := cur % W
    let cy := cur / W
    let s' : Component :=
      { area := s.area + 1
        minX := min s.minX cx
        maxX := max s.maxX cx
        minY := min s.minY cy
        maxY := max s.maxY cy
        cells := insert cur s.cells }
    let sv := (neighList W cur).foldl (pushNeighbor W H mask cx cy) (rest, visited)
    flood W H mask fuel sv.1 sv.2 s'

/-- The row-major scan of the outer double loop: each unvisited mask pixel
seeds one flood fill, and each flood fill records one component. (The source
pushes a component only when its area passes the noise floor; that filter is
applied afterwards by `componentsOf` below, which is the same thing since the
threshold does not change during the loop.) -/
def scanLoop (W H : ℕ) (mask : ℕ → Bool) :
    List ℕ → Finset ℕ → List Component → Finset ℕ × List Component
  | [], visited, comps => (visited, comps)
  | idx :: rest, visited, comps =>
    if mask idx ∧ idx ∉ visited then
      let r := flood W H mask (W * H + 1) [idx] (insert idx visited)
        { area := 0, minX := idx % W, maxX := idx % W
          minY := idx / W, maxY := idx / W, cells := ∅ }
      scanLoop W H mask rest r.1 (comps ++ [r.2])
    else
      scanLoop W H mask rest visited comps

/-- All components found by scanning the whole raster in row-major order,
before the noise-floor filter. -/
def rawComponentsOf (W H : ℕ) (mask : ℕ → Bool) : List Component :=
  (scanLoop W H mask (List.range (W * H)) ∅ []).2

/-- A well-formed recorded component: its cells are one whole connectivity
class of a foreground seed, its area counts exactly its cells, and its
bounding box encloses every cell while staying inside the raster. -/
def CompGood (W H : ℕ) (mask : ℕ → Bool) (c : Component) : Prop :=
  (∃ s, fg W H mask s ∧ ∀ v, v ∈ c.cells ↔ conn W H mask s v) ∧
  c.area = c.cells.card ∧
  (∀ p ∈ c.cells, c.minX ≤ p % W ∧ p % W ≤ c.maxX ∧ c.minY ≤ p / W ∧ p / W ≤ c.maxY) ∧
  c.maxX < W ∧ c.maxY < H ∧ c.cells.Nonempty

/-! ### The `computeLeafCrops` pipeline -/

/-- A decoded image, as the DOM exposes it (`naturalWidth`/`naturalHeight`
with `width`/`height` fallbacks). -/
structure Img where
  naturalWidth : ℕ
  naturalHeight : ℕ
  width : ℕ
  height : ℕ
deriving DecidableEq

/-- The browser environment the function runs in.

* `segCtxOk` — whether `getContext` succeeds on the segmentation canvas;
* `outCtxOk i` — whether `getContext` succeeds on the output canvas the `i`-th
  loop iteration creates;
* `pixel tW tH idx` — the `(r, g, b)` triple at linear index `idx` of the
  pixel buffer that `drawImage`/`getImageData` produce for a `tW × tH`
  downscale of the decoded image (the resampling kernel is browser-defined, so
  it is a parameter here);
* `encode i` — the data-url string `toDataURL` returns for the thumbnail drawn
  in the `i`-th iteration. -/
structure Env where
  segCtxOk : Bool
  outCtxOk : ℕ → Bool
  pixel : ℕ → ℕ → ℕ → ℕ × ℕ × ℕ
  encode : ℕ → String

/-- One output record: the encoded thumbnail and its source-space box. -/
structure LeafCrop where
  dataUrl : String
  bbox : BBoxI
deriving DecidableEq

/-- `srcW = img.naturalWidth || img.width` (JavaScript `||` on numbers falls
through exactly on `0`). -/
def srcW (img : Img) : ℕ := if img.naturalWidth ≠ 0 then img.naturalWidth else img.width

/-- `srcH = img.naturalHeight || img.height`. -/
def srcH (img : Img) : ℕ := if img.naturalHeight ≠ 0 then img.naturalHeight else img.height

/-- `targetW = Math.min(320, srcW)`. -/
def targetW (img : Img) : ℕ := min 320 (srcW img)

/-- `scale = targetW / srcW`. -/
def scale (img : Img) : ℚ := (targetW img : ℚ) / (srcW img : ℚ)

/-- `targetH = Math.max(1, Math.round(srcH * scale))`. -/
def targetH (img : Img) : ℕ := max 1 (jsRound ((srcH img : ℚ) * scale img)).toNat

/-- The binary mask built from the downscaled raster: index in range and
`isLikelyGreen` on its channels. The source reads `data[i], data[i+1],
data[i+2]` of the flat RGBA array at `i = (y * targetW + x) * 4`; here the
triple comes from `env.pixel`. -/
def maskOf (img : Img) (env : Env) : ℕ → Bool := fun idx =>
  decide (idx < targetW img * targetH img) &&
    isLikelyGreen (env.pixel (targetW img) (targetH img) idx).1
      (env.pixel (targetW img) (targetH img) idx).2.1
      (env.pixel (targetW img) (targetH img) idx).2.2

/-- All components the labeler finds on the downscaled raster. -/
def rawComponents (img : Img) (env : Env) : List Component :=
  rawComponentsOf (targetW img) (targetH img) (maskOf img env)

/-- `minArea = Math.max(200, Math.round((targetW * targetH) * 0.01))`. -/
def minArea (img : Img) : ℕ :=
  max 200 (jsRound ((targetW img * targetH img : ℕ) * (0.01 : ℚ))).toNat

/-- The components that survive the noise-floor filter (the source pushes a
component only when `area >= minArea`; collecting all and filtering is the
same since the threshold is loop-invariant). -/
def componentsOf (img : Img) (env : Env) : List Component :=
  (rawComponents img env).filter (fun c => decide (minArea img ≤ c.area))

/-- `components.sort((a, b) => b.area - a.area)`: JavaScript sort is stable,
and the comparator orders by descending area; a stable merge sort with
`le a b ↔ b.area ≤ a.area` is the same. -/
def sortedComponents (img : Img) (env : Env) : List Component :=
  (componentsOf img env).mergeSort (fun a b => decide (b.area ≤ a.area))

/-- `picked = components.slice(0, Math.max(1, maxLeaves))`. -/
def picked (img : Img) (env : Env) (maxLeaves : ℤ) : List Component :=
  (sortedComponents img env).take (max 1 maxLeaves).toNat

/-- The component bounding box in downscaled coordinates:
`{x: minX, y: minY, w: maxX - minX + 1, h: maxY - minY + 1}`. -/
def bboxSmall (c : Component) : BBoxI :=
  ⟨(c.minX : ℤ), (c.minY : ℤ), (c.maxX : ℤ) - (c.minX : ℤ) + 1,
    (c.maxY : ℤ) - (c.minY : ℤ) + 1⟩

/-- Conversion to source coordinates: `Math.round(v / scale)` per field. -/
def bboxSrc (img : Img) (c : Component) : BBoxI :=
  ⟨jsRound (((bboxSmall c).x : ℚ) / scale img),
    jsRound (((bboxSmall c).y : ℚ) / scale img),
    jsRound (((bboxSmall c).w : ℚ) / scale img),
    jsRound (((bboxSmall c).h : ℚ) / scale img)⟩

/-- The final source-space box of a component:
`expandBBox(bboxSrc, 1.2, srcW, srcH)`. -/
def expandedBox (img : Img) (c : Component) : BBoxI :=
  expandBBox (bboxSrc img c) (1.2 : ℚ) ((srcW img : ℤ)) ((srcH img : ℤ))

/-- The cropping loop over the picked components, with `i` counting the
iterations (used to index the per-iteration canvas context and encoder). A
failed `getContext` skips the component; otherwise the thumbnail is drawn and
encoded, and the record is appended. The thumbnail geometry
(`thumbScale, outW, outH`) only affects the drawn bitmap behind `env.encode`,
not the returned box. -/
def renderLoop (img : Img) (env : Env) : List Component → ℕ → List LeafCrop
  | [], _ => []
  | c :: rest, i =>
    if env.outCtxOk i then
      ⟨env.encode i, expandedBox img c⟩ :: renderLoop img env rest (i + 1)
    else
      renderLoop img env rest (i + 1)

/-- The body of `computeLeafCrops` after a successful decode: the guard
returns for missing dimensions, a missing segmentation context, and an empty
surviving-component list, then the render loop. -/
def computeLeafCropsOk (img : Img) (env : Env) (maxLeaves : ℤ) : List LeafCrop :=
  if srcW img = 0 ∨ srcH img = 0 then []
  else if env.segCtxOk = false then []
  else if componentsOf img env = [] then []
  else renderLoop img env (picked img env maxLeaves) 0

/-- `computeLeafCrops`: decode failure propagates as the exception; every
other outcome is a normal return. -/
def computeLeafCrops (decoded : Except String Img) (env : Env) (maxLeaves : ℤ) :
    Except String (List LeafCrop) :=
  match decoded with
  | .error e => .error e
  | .ok img => .ok (computeLeafCropsOk img env maxLeaves)

/-- A benign environment for concrete instantiations: contexts succeed, all
pixels are black, encoding returns the empty string. -/
def env0 : Env := ⟨true, fun _ => true, fun _ _ _ => (0, 0, 0), fun _ => ""⟩

/-- A zero-dimension image. -/
def img0 : Img := ⟨0, 0, 0, 0⟩

/-- A 10 × 10 image. -/
def img10 : Img := ⟨10, 10, 10, 10⟩

/-- A 100 × 100 image. -/
def img100 : Img := ⟨100, 100, 100, 100⟩

/-- An environment whose pixel buffer is uniformly strong green `(0,200,0)`. -/
def envGreen : Env := ⟨true, fun _ => true, fun _ _ _ => (0, 200, 0), fun _ => ""⟩

theorem jsRound_mono {q q' : ℚ} (h : q ≤ q') : jsRound q ≤ jsRound q' := by
  unfold jsRound
  exact Int.floor_le_floor (by linarith)

theorem jsRound_intCast (z : ℤ) : jsRound (z : ℚ) = z := by
  unfold jsRound
  rw [Int.floor_eq_iff]
  constructor
  · norm_num
  · linarith

/-- Whatever the input box is, the expanded and clamped box stays inside the
frame and has width and height at least 1 (needs only a nonempty frame). -/
theorem expandBBox_within (bb : BBoxI) (factor : ℚ) {maxW maxH : ℤ}
    (hW : 1 ≤ maxW) (hH : 1 ≤ maxH) :
    bboxWithin maxW maxH (expandBBox bb factor maxW maxH) := by
  unfold expandBBox bboxWithin clamp
  refine ⟨?_, ?_, ?_, ?_, ?_, ?_⟩ <;> simp only [] <;> omega

/-- Expansion followed by clamping never discards an in-bounds integer point of
the original box (the x part together with the y part). -/
theorem expandBBox_contains (bb : BBoxI) (factor : ℚ) (maxW maxH : ℤ)
    (hf : 1 ≤ factor) (px py : ℤ)
    (hx1 : bb.x ≤ px) (hx2 : px < bb.x + bb.w) (hx3 : 0 ≤ px) (hx4 : px < maxW)
    (hy1 : bb.y ≤ py) (hy2 : py < bb.y + bb.h) (hy3 : 0 ≤ py) (hy4 : py < maxH) :
    (expandBBox bb factor maxW maxH).x ≤ px ∧
      px < (expandBBox bb factor maxW maxH).x + (expandBBox bb factor maxW maxH).w ∧
      (expandBBox bb factor maxW maxH).y ≤ py ∧
      py < (expandBBox bb factor maxW maxH).y + (expandBBox bb factor maxW maxH).h := by
  have hwpos : (0 : ℤ) ≤ bb.w := by omega
  have hhpos : (0 : ℤ) ≤ bb.h := by omega
  have hwq : (bb.w : ℚ) ≤ (bb.w : ℚ) * factor := by
    have : (0 : ℚ) ≤ (bb.w : ℚ) := by exact_mod_cast hwpos
    nlinarith
  have hhq : (bb.h : ℚ) ≤ (bb.h : ℚ) * factor := by
    have : (0 : ℚ) ≤ (bb.h : ℚ) := by exact_mod_cast hhpos
    nlinarith
  -- the un-clamped rounded corners already bracket the point
  have hxlo : jsRound ((bb.x : ℚ) + (bb.w : ℚ) / 2 - (bb.w : ℚ) * factor / 2) ≤ px := by
    have h1 : ((bb.x : ℚ) + (bb.w : ℚ) / 2 - (bb.w : ℚ) * factor / 2) ≤ ((px : ℚ)) := by
      have : (bb.x : ℚ) ≤ (px : ℚ) := by exact_mod_cast hx1
      linarith
    have := jsRound_mono h1
    rwa [jsRound_intCast] at this
  have hxhi : px + 1 ≤ jsRound ((bb.x : ℚ) + (bb.w : ℚ) / 2 + (bb.w : ℚ) * factor / 2) := by
    have h1 : ((px : ℚ) + 1) ≤ ((bb.x : ℚ) + (bb.w : ℚ) / 2 + (bb.w : ℚ) * factor / 2) := by
      have : (px : ℚ) + 1 ≤ (bb.x : ℚ) + (bb.w : ℚ) := by exact_mod_cast hx2
      linarith
    have := jsRound_mono h1
    rw [show ((px : ℚ) + 1) = (((px + 1 : ℤ)) : ℚ) by push_cast; ring, jsRound_intCast] at this
    exact this
  have hylo : jsRound ((bb.y : ℚ) + (bb.h : ℚ) / 2 - (bb.h : ℚ) * factor / 2) ≤ py := by
    have h1 : ((bb.y : ℚ) + (bb.h : ℚ) / 2 - (bb.h : ℚ) * factor / 2) ≤ ((py : ℚ)) := by
      have : (bb.y : ℚ) ≤ (py : ℚ) := by exact_mod_cast hy1
      linarith
    have := jsRound_mono h1
    rwa [jsRound_intCast] at this
  have hyhi : py + 1 ≤ jsRound ((bb.y : ℚ) + (bb.h : ℚ) / 2 + (bb.h : ℚ) * factor / 2) := by
    have h1 : ((py : ℚ) + 1) ≤ ((bb.y : ℚ) + (bb.h : ℚ) / 2 + (bb.h : ℚ) * factor / 2) := by
      have : (py : ℚ) + 1 ≤ (bb.y : ℚ) + (bb.h : ℚ) := by exact_mod_cast hy2
      linarith
    have := jsRound_mono h1
    rw [show ((py : ℚ) + 1) = (((py + 1 : ℤ)) : ℚ) by push_cast; ring, jsRound_intCast] at this
    exact this
  unfold expandBBox clamp
  simp only []
  refine ⟨?_, ?_, ?_, ?_⟩ <;> omega

theorem adjacent_symm {W a b : ℕ} (h : adjacent W a b) : adjacent W b a := by
  unfold adjacent at h ⊢
  omega

theorem adjacent_irrefl (W a : ℕ) : ¬ adjacent W a a := by
  unfold adjacent
  omega

theorem estep_symm {W H : ℕ} {mask : ℕ → Bool} {a b : ℕ}
    (h : estep W H mask a b) : estep W H mask b a :=
  ⟨h.2.1, h.1, adjacent_symm h.2.2⟩

theorem conn_symm {W H : ℕ} {mask : ℕ → Bool} {a b : ℕ}
    (h : conn W H mask a b) : conn W H mask b a := by
  induction h with
  | refl => exact Relation.ReflTransGen.refl
  | tail _ hstep ih => exact Relation.ReflTransGen.head (estep_symm hstep) ih

theorem conn_fg_left {W H : ℕ} {mask : ℕ → Bool} {a b : ℕ}
    (h : conn W H mask a b) (hb : fg W H mask a) : fg W H mask b := by
  induction h with
  | refl => exact hb
  | tail _ hstep _ => exact hstep.2.1

/-- Every genuine 4-neighbor of `cur` is one of the four linear-offset
candidates the source enumerates. -/
theorem adjacent_mem_neighList {W H cur m : ℕ} (hcur : cur < W * H) (hm : m < W * H)
    (h : adjacent W cur m) : (m : ℤ) ∈ neighList W cur := by
  have hW : W ≠ 0 := by
    rintro rfl
    simp at hcur
  have h1 : W * (cur / W) + cur % W = cur := Nat.div_add_mod cur W
  have h2 : W * (m / W) + m % W = m := Nat.div_add_mod m W
  unfold adjacent at h
  have hcases :
      (cur % W = m % W ∧ (m / W = cur / W + 1 ∨ cur / W = m / W + 1)) ∨
        (cur / W = m / W ∧ (m % W = cur % W + 1 ∨ cur % W = m % W + 1)) := by
    omega
  have g1 : ((W : ℤ)) * ((cur / W : ℕ) : ℤ) + ((cur % W : ℕ) : ℤ) = (cur : ℤ) := by
    exact_mod_cast h1
  have g2 : ((W : ℤ)) * ((m / W : ℕ) : ℤ) + ((m % W : ℕ) : ℤ) = (m : ℤ) := by
    exact_mod_cast h2
  simp only [neighList, List.mem_cons, List.not_mem_nil, or_false]
  rcases hcases with ⟨hr, hq | hq⟩ | ⟨hq, hr | hr⟩
  · -- one row below: m = cur + W
    have hqz : ((m / W : ℕ) : ℤ) = ((cur / W : ℕ) : ℤ) + 1 := by exact_mod_cast hq
    have hrz : ((cur % W : ℕ) : ℤ) = ((m % W : ℕ) : ℤ) := by exact_mod_cast hr
    right; right; right
    calc (m : ℤ) = (W : ℤ) * ((m / W : ℕ) : ℤ) + ((m % W : ℕ) : ℤ) := g2.symm
      _ = (W : ℤ) * ((cur / W : ℕ) : ℤ) + ((cur % W : ℕ) : ℤ) + (W : ℤ) := by
          rw [hqz, hrz]; ring
      _ = (cur : ℤ) + (W : ℤ) := by rw [g1]
  · -- one row above: m = cur - W
    have hqz : ((cur / W : ℕ) : ℤ) = ((m / W : ℕ) : ℤ) + 1 := by exact_mod_cast hq
    have hrz : ((cur % W : ℕ) : ℤ) = ((m % W : ℕ) : ℤ) := by exact_mod_cast hr
    right; right; left
    calc (m : ℤ) = (W : ℤ) * ((m / W : ℕ) : ℤ) + ((m % W : ℕ) : ℤ) := g2.symm
      _ = (W : ℤ) * ((cur / W : ℕ) : ℤ) + ((cur % W : ℕ) : ℤ) - (W : ℤ) := by
          rw [hqz, hrz]; ring
      _ = (cur : ℤ) - (W : ℤ) := by rw [g1]
  · -- right neighbor: m = cur + 1
    have hqz : ((cur / W : ℕ) : ℤ) = ((m / W : ℕ) : ℤ) := by exact_mod_cast hq
    have hrz : ((m % W : ℕ) : ℤ) = ((cur % W : ℕ) : ℤ) + 1 := by exact_mod_cast hr
    right; left
    calc (m : ℤ) = (W : ℤ) * ((m / W : ℕ) : ℤ) + ((m % W : ℕ) : ℤ) := g2.symm
      _ = (W : ℤ) * ((cur / W : ℕ) : ℤ) + ((cur % W : ℕ) : ℤ) + 1 := by
          rw [hqz, hrz]; ring
      _ = (cur : ℤ) + 1 := by rw [g1]
  · -- left neighbor: m = cur - 1
    have hqz : ((cur / W : ℕ) : ℤ) = ((m / W : ℕ) : ℤ) := by exact_mod_cast hq
    have hrz : ((cur % W : ℕ) : ℤ) = ((m % W : ℕ) : ℤ) + 1 := by exact_mod_cast hr
    left
    calc (m : ℤ) = (W : ℤ) * ((m / W : ℕ) : ℤ) + ((m % W : ℕ) : ℤ) := g2.symm
      _ = (W : ℤ) * ((cur / W : ℕ) : ℤ) + ((cur % W : ℕ) : ℤ) - 1 := by
          rw [hqz, hrz]; ring
      _ = (cur : ℤ) - 1 := by rw [g1]

/-- What one candidate step does to the (stack, visited) pair: it prepends a
(possibly empty) block of fresh, in-bounds, masked, genuinely 4-adjacent
pixels, the same block being added to the visited set. -/
theorem pushNeighbor_spec (W H : ℕ) (mask : ℕ → Bool) (cur : ℕ)
    (sv : List ℕ × Finset ℕ) (n : ℤ) :
    ∃ t : List ℕ,
      pushNeighbor W H mask (cur % W) (cur / W) sv n = (t ++ sv.1, sv.2 ∪ t.toFinset) ∧
      t.Nodup ∧
      ∀ m ∈ t, m ∉ sv.2 ∧ fg W H mask m ∧ adjacent W cur m := by
  unfold pushNeighbor
  by_cases h0 : n < 0 ∨ (W * H : ℤ) ≤ n
  · refine ⟨[], ?_, List.nodup_nil, by simp⟩
    rw [if_pos h0]
    simp
  · rw [if_neg h0]
    by_cases h1 : ((((n.toNat % W : ℕ) : ℤ) - ((cur % W : ℕ) : ℤ)).natAbs
        + (((n.toNat / W : ℕ) : ℤ) - ((cur / W : ℕ) : ℤ)).natAbs) ≠ 1
    · refine ⟨[], ?_, List.nodup_nil, by simp⟩
      rw [if_pos h1]
      simp
    · rw [if_neg h1]
      push_neg at h0 h1
      by_cases h2 : n.toNat ∉ sv.2 ∧ mask n.toNat = true
      · refine ⟨[n.toNat], ?_, List.nodup_singleton _, ?_⟩
        · rw [if_pos h2]
          simp [Finset.insert_eq, Finset.union_comm]
        · intro m hmem
          simp only [List.mem_singleton] at hmem
          subst hmem
          refine ⟨h2.1, ⟨?_, h2.2⟩, adjacent_symm ?_⟩
          · omega
          · exact h1
      · refine ⟨[], ?_, List.nodup_nil, by simp⟩
        rw [if_neg h2]
        simp

/-- If the candidate is a genuine foreground 4-neighbor, it is visited after
its step (either it already was, or it is pushed and marked). -/
theorem pushNeighbor_complete (W H : ℕ) (mask : ℕ → Bool) (cur : ℕ)
    (sv : List ℕ × Finset ℕ) (m : ℕ) (hm : fg W H mask m) (hadj : adjacent W cur m) :
    m ∈ (pushNeighbor W H mask (cur % W) (cur / W) sv ((m : ℕ) : ℤ)).2 := by
  unfold pushNeighbor
  have h0 : ¬ (((m : ℕ) : ℤ) < 0 ∨ (W * H : ℤ) ≤ ((m : ℕ) : ℤ)) := by
    have := hm.1
    omega
  simp only [h0, if_false, Int.toNat_natCast]
  have h1 : ¬ (((((m % W : ℕ) : ℤ) - ((cur % W : ℕ) : ℤ)).natAbs
      + (((m / W : ℕ) : ℤ) - ((cur / W : ℕ) : ℤ)).natAbs) ≠ 1) := by
    have := adjacent_symm hadj
    unfold adjacent at this
    omega
  simp only [h1, if_false]
  by_cases h2 : m ∉ sv.2 ∧ mask m = true
  · simp [h2]
  · have : m ∈ sv.2 := by
      rcases Decidable.not_and_iff_or_not.mp h2 with h | h
      · exact Decidable.not_not.mp h
      · exact absurd hm.2 h
    simp [h2, this]

/-- What the whole candidate fold does to the (stack, visited) pair: it
prepends one block of fresh, foreground, 4-adjacent pixels and marks exactly
that block visited. -/
theorem pushFold_spec (W H : ℕ) (mask : ℕ → Bool) (cur : ℕ) :
    ∀ (ns : List ℤ) (sv : List ℕ × Finset ℕ),
      ∃ t : List ℕ,
        ns.foldl (pushNeighbor W H mask (cur % W) (cur / W)) sv
            = (t ++ sv.1, sv.2 ∪ t.toFinset) ∧
        t.Nodup ∧
        ∀ m ∈ t, m ∉ sv.2 ∧ fg W H mask m ∧ adjacent W cur m
  | [], sv => ⟨[], by simp, List.nodup_nil, by simp⟩
  | n :: ns, sv => by
    obtain ⟨t1, he1, hn1, hp1⟩ := pushNeighbor_spec W H mask cur sv n
    obtain ⟨t2, he2, hn2, hp2⟩ :=
      pushFold_spec W H mask cur ns (t1 ++ sv.1, sv.2 ∪ t1.toFinset)
    refine ⟨t2 ++ t1, ?_, ?_, ?_⟩
    · rw [List.foldl_cons, he1, he2]
      refine congrArg₂ Prod.mk (by rw [List.append_assoc]) ?_
      ext a
      simp only [Finset.mem_union, List.mem_toFinset, List.mem_append]
      tauto
    · refine List.Nodup.append hn2 hn1 ?_
      intro a ha2 ha1
      exact (hp2 a ha2).1 (Finset.mem_union_right _ (List.mem_toFinset.mpr ha1))
    · intro m hmem
      rcases List.mem_append.mp hmem with h | h
      · obtain ⟨hnv, hfg, hadj⟩ := hp2 m h
        exact ⟨fun hc => hnv (Finset.mem_union_left _ hc), hfg, hadj⟩
      · exact hp1 m h

/-- Folding over the candidates only grows the visited set. -/
theorem pushFold_mono (W H : ℕ) (mask : ℕ → Bool) (cur : ℕ)
    (ns : List ℤ) (sv : List ℕ × Finset ℕ) :
    sv.2 ⊆ (ns.foldl (pushNeighbor W H mask (cur % W) (cur / W)) sv).2 := by
  obtain ⟨t, he, -, -⟩ := pushFold_spec W H mask cur ns sv
  rw [he]
  exact Finset.subset_union_left

/-- Every foreground 4-neighbor of `cur` whose linear index is among the
candidates ends up visited after the fold. -/
theorem pushFold_complete (W H : ℕ) (mask : ℕ → Bool) (cur : ℕ) :
    ∀ (ns : List ℤ) (sv : List ℕ × Finset ℕ) (m : ℕ),
      fg W H mask m → adjacent W cur m → ((m : ℤ) ∈ ns ∨ m ∈ sv.2) →
      m ∈ (ns.foldl (pushNeighbor W H mask (cur % W) (cur / W)) sv).2
  | [], sv, m, _, _, hin => by
    rcases hin with h | h
    · simp at h
    · simpa using h
  | n :: ns, sv, m, hfg, hadj, hin => by
    rw [List.foldl_cons]
    by_cases hn : (m : ℤ) = n
    · subst hn
      exact pushFold_complete W H mask cur ns _ m hfg hadj
        (Or.inr (pushNeighbor_complete W H mask cur sv m hfg hadj))
    · rcases hin with h | h
      · rcases List.mem_cons.mp h with h' | h'
        · exact absurd h' hn
        · exact pushFold_complete W H mask cur ns _ m hfg hadj (Or.inl h')
      · obtain ⟨t1, he1, -, -⟩ := pushNeighbor_spec W H mask cur sv n
        refine pushFold_complete W H mask cur ns _ m hfg hadj (Or.inr ?_)
        rw [he1]
        exact Finset.mem_union_left _ h

/-- Main invariant lemma for the flood-fill loop. Starting from a stack of
pixels that are visited, foreground, and connected to the seed, with the
previously visited region closed under foreground adjacency steps, the loop
returns a visited set that is exactly the old region plus the collected cells,
the collected cells are foreground and connected to the seed, all their
foreground neighbors are visited, the area counter equals the number of
collected cells, and the recorded bounding box encloses every collected cell
while staying inside the raster. -/
theorem flood_spec (W H : ℕ) (mask : ℕ → Bool) (seed : ℕ) (vprev : Finset ℕ) :
    ∀ (fuel : ℕ) (stack : List ℕ) (visited : Finset ℕ) (s : Component),
      W * H - visited.card + stack.length ≤ fuel →
      visited = (vprev ∪ s.cells) ∪ stack.toFinset →
      visited ⊆ Finset.range (W * H) →
      stack.Nodup →
      (∀ i ∈ stack, i ∉ vprev ∧ i ∉ s.cells ∧ fg W H mask i ∧ conn W H mask seed i) →
      Disjoint vprev s.cells →
      s.area = s.cells.card →
      (∀ u ∈ s.cells, fg W H mask u ∧ conn W H mask seed u) →
      (∀ u ∈ s.cells, ∀ v, estep W H mask u v → v ∈ visited) →
      (∀ c ∈ s.cells,
        s.minX ≤ c % W ∧ c % W ≤ s.maxX ∧ s.minY ≤ c / W ∧ c / W ≤ s.maxY) →
      s.maxX < W → s.maxY < H →
      (flood W H mask fuel stack visited s).1
          = vprev ∪ (flood W H mask fuel stack visited s).2.cells ∧
      s.cells ∪ stack.toFinset ⊆ (flood W H mask fuel stack visited s).2.cells ∧
      (∀ u ∈ (flood W H mask fuel stack visited s).2.cells,
        fg W H mask u ∧ conn W H mask seed u) ∧
      (∀ u ∈ (flood W H mask fuel stack visited s).2.cells,
        ∀ v, estep W H mask u v → v ∈ (flood W H mask fuel stack visited s).1) ∧
      (flood W H mask fuel stack visited s).2.area
          = (flood W H mask fuel stack visited s).2.cells.card ∧
      Disjoint vprev (flood W H mask fuel stack visited s).2.cells ∧
      (∀ c ∈ (flood W H mask fuel stack visited s).2.cells,
        (flood W H mask fuel stack visited s).2.minX ≤ c % W ∧
        c % W ≤ (flood W H mask fuel stack visited s).2.maxX ∧
        (flood W H mask fuel stack visited s).2.minY ≤ c / W ∧
        c / W ≤ (flood W H mask fuel stack visited s).2.maxY) ∧
      (flood W H mask fuel stack visited s).2.maxX < W ∧
      (flood W H mask fuel stack visited s).2.maxY < H := by
  intro fuel
  induction fuel with
  | zero =>
    intro stack visited s hfuel hvis hvB hnd hstack hdisj harea hcells hclosed hbnd hbX hbY
    cases stack with
    | nil =>
      simp only [flood, List.toFinset_nil, Finset.union_empty] at hvis ⊢
      subst hvis
      exact ⟨rfl, fun a ha => ha, hcells, hclosed, harea, hdisj, hbnd, hbX, hbY⟩
    | cons cur rest =>
      exfalso
      have hlen : (cur :: rest).length = rest.length + 1 := rfl
      omega
  | succ fuel ih =>
    intro stack visited s hfuel hvis hvB hnd hstack hdisj harea hcells hclosed hbnd hbX hbY
    cases stack with
    | nil =>
      simp only [flood, List.toFinset_nil, Finset.union_empty] at hvis ⊢
      subst hvis
      exact ⟨rfl, fun a ha => ha, hcells, hclosed, harea, hdisj, hbnd, hbX, hbY⟩
    | cons cur rest =>
      obtain ⟨hcnp, hcnc, hcfg, hcconn⟩ := hstack cur (List.mem_cons_self cur rest)
      have hW : 0 < W := by
        rcases Nat.eq_zero_or_pos W with h0 | h0
        · subst h0
          exact absurd hcfg.1 (by omega)
        · exact h0
      have hcurv : cur ∈ visited := by
        rw [hvis]
        exact Finset.mem_union_right _ (by simp)
      have hrestv : ∀ a ∈ rest, a ∈ visited := by
        intro a ha
        rw [hvis]
        exact Finset.mem_union_right _ (by simp [ha])
      have hsub1 : vprev ⊆ visited := by
        rw [hvis]
        intro a ha
        exact Finset.mem_union_left _ (Finset.mem_union_left _ ha)
      have hsub2 : s.cells ⊆ visited := by
        rw [hvis]
        intro a ha
        exact Finset.mem_union_left _ (Finset.mem_union_right _ ha)
      obtain ⟨t, he, hnt, hpt⟩ := pushFold_spec W H mask cur (neighList W cur) (rest, visited)
      have hptv : ∀ m ∈ t, m ∉ visited ∧ fg W H mask m ∧ adjacent W cur m := hpt
      -- unfold one loop iteration
      have hstep : flood W H mask (fuel + 1) (cur :: rest) visited s
          = flood W H mask fuel (t ++ rest) (visited ∪ t.toFinset)
              { area := s.area + 1
                minX := min s.minX (cur % W)
                maxX := max s.maxX (cur % W)
                minY := min s.minY (cur / W)
                maxY := max s.maxY (cur / W)
                cells := insert cur s.cells } := by
        simp only [flood]
        rw [he]
      rw [hstep]
      -- established facts for the recursive call
      have htfresh : ∀ m ∈ t, m ∉ visited := fun m hm => (hptv m hm).1
      have htsub : Disjoint visited t.toFinset := by
        rw [Finset.disjoint_right]
        intro a ha
        exact fun hv => htfresh a (List.mem_toFinset.mp ha) hv
      have hcard : (visited ∪ t.toFinset).card = visited.card + t.length := by
        rw [Finset.card_union_of_disjoint htsub, List.toFinset_card_of_nodup hnt]
      have hvB' : visited ∪ t.toFinset ⊆ Finset.range (W * H) := by
        intro a ha
        rcases Finset.mem_union.mp ha with h | h
        · exact hvB h
        · exact Finset.mem_range.mpr ((hptv a (List.mem_toFinset.mp h)).2.1).1
      have hfuel' : W * H - (visited ∪ t.toFinset).card + (t ++ rest).length ≤ fuel := by
        have h1 : (visited ∪ t.toFinset).card ≤ W * H := by
          have := Finset.card_le_card hvB'
          simpa using this
        have h2 : (t ++ rest).length = t.length + rest.length := List.length_append _ _
        have h3 : (cur :: rest).length = rest.length + 1 := rfl
        rw [h3] at hfuel
        rw [hcard] at h1 ⊢
        rw [h2]
        omega
      have hvis' : visited ∪ t.toFinset
          = (vprev ∪ insert cur s.cells) ∪ (t ++ rest).toFinset := by
        rw [hvis]
        ext a
        simp only [Finset.mem_union, List.mem_toFinset, List.mem_cons, List.mem_append,
          Finset.mem_insert]
        tauto
      have hnd' : (t ++ rest).Nodup := by
        refine List.Nodup.append hnt (hnd.of_cons) ?_
        intro a hat har
        exact htfresh a hat (hrestv a har)
      have hstack' : ∀ i ∈ t ++ rest,
          i ∉ vprev ∧ i ∉ (insert cur s.cells : Finset ℕ) ∧ fg W H mask i
            ∧ conn W H mask seed i := by
        intro i hi
        rcases List.mem_append.mp hi with h | h
        · obtain ⟨hif, hifg, hiadj⟩ := hptv i h
          have hinv : i ∉ visited := hif
          refine ⟨fun hc => hinv (hsub1 hc), ?_, hifg,
            Relation.ReflTransGen.tail hcconn ⟨hcfg, hifg, hiadj⟩⟩
          intro hc
          rcases Finset.mem_insert.mp hc with h' | h'
          · subst h'
            exact hinv hcurv
          · exact hinv (hsub2 h')
        · obtain ⟨h1, h2, h3, h4⟩ := hstack i (List.mem_cons_of_mem _ h)
          refine ⟨h1, ?_, h3, h4⟩
          intro hc
          rcases Finset.mem_insert.mp hc with h' | h'
          · subst h'
            exact (List.nodup_cons.mp hnd).1 h
          · exact h2 h'
      have hdisj' : Disjoint vprev (insert cur s.cells) := by
        rw [Finset.disjoint_insert_right]
        exact ⟨hcnp, hdisj⟩
      have harea' : s.area + 1 = (insert cur s.cells).card := by
        rw [Finset.card_insert_of_not_mem hcnc, harea]
      have hcells' : ∀ u ∈ (insert cur s.cells : Finset ℕ),
          fg W H mask u ∧ conn W H mask seed u := by
        intro u hu
        rcases Finset.mem_insert.mp hu with h | h
        · subst h
          exact ⟨hcfg, hcconn⟩
        · exact hcells u h
      have hclosed' : ∀ u ∈ (insert cur s.cells : Finset ℕ),
          ∀ v, estep W H mask u v → v ∈ visited ∪ t.toFinset := by
        intro u hu v hv
        rcases Finset.mem_insert.mp hu with h | h
        · subst h
          have hmem := adjacent_mem_neighList hcfg.1 hv.2.1.1 hv.2.2
          have := pushFold_complete W H mask u (neighList W u) (rest, visited) v
            hv.2.1 hv.2.2 (Or.inl hmem)
          rw [he] at this
          exact this
        · exact Finset.mem_union_left _ (hclosed u h v hv)
      have hbnd' : ∀ c ∈ (insert cur s.cells : Finset ℕ),
          min s.minX (cur % W) ≤ c % W ∧ c % W ≤ max s.maxX (cur % W) ∧
          min s.minY (cur / W) ≤ c / W ∧ c / W ≤ max s.maxY (cur / W) := by
        intro c hc
        rcases Finset.mem_insert.mp hc with h | h
        · subst h
          exact ⟨min_le_right _ _, le_max_right _ _, min_le_right _ _, le_max_right _ _⟩
        · obtain ⟨b1, b2, b3, b4⟩ := hbnd c h
          exact ⟨le_trans (min_le_left _ _) b1, le_trans b2 (le_max_left _ _),
            le_trans (min_le_left _ _) b3, le_trans b4 (le_max_left _ _)⟩
      have hbX' : max s.maxX (cur % W) < W := by
        exact max_lt hbX (Nat.mod_lt _ hW)
      have hbY' : max s.maxY (cur / W) < H := by
        refine max_lt hbY ?_
        rw [Nat.div_lt_iff_lt_mul hW, Nat.mul_comm]
        exact hcfg.1
      obtain ⟨c1, c2, c3, c4, c5, c6, c7, c8, c9⟩ :=
        ih (t ++ rest) (visited ∪ t.toFinset)
          { area := s.area + 1
            minX := min s.minX (cur % W)
            maxX := max s.maxX (cur % W)
            minY := min s.minY (cur / W)
            maxY := max s.maxY (cur / W)
            cells := insert cur s.cells }
          hfuel' hvis' hvB' hnd' hstack' hdisj' harea' hcells' hclosed' hbnd' hbX' hbY'
      refine ⟨c1, ?_, c3, c4, c5, c6, c7, c8, c9⟩
      intro a ha
      apply c2
      rcases Finset.mem_union.mp ha with h | h
      · exact Finset.mem_union_left _ (Finset.mem_insert_of_mem h)
      · rcases List.mem_cons.mp (List.mem_toFinset.mp h) with h' | h'
        · subst h'
          exact Finset.mem_union_left _ (Finset.mem_insert_self _ _)
        · exact Finset.mem_union_right _ (by simp [h'])

/-- If a collected cell set contains its seed, is connected to it, has all its
foreground neighbors inside `old region ∪ cells`, is disjoint from the old
region, and the old region is closed under adjacency steps, then the cells are
exactly the connectivity class of the seed. -/
theorem cells_eq_class (W H : ℕ) (mask : ℕ → Bool) (seed : ℕ)
    (vprev cells : Finset ℕ)
    (hseedc : seed ∈ cells)
    (hconn : ∀ u ∈ cells, conn W H mask seed u)
    (hcl : ∀ u ∈ cells, ∀ v, estep W H mask u v → v ∈ vprev ∪ cells)
    (hdisj : Disjoint vprev cells)
    (hprevC : ∀ u ∈ vprev, ∀ v, estep W H mask u v → v ∈ vprev) :
    ∀ v, v ∈ cells ↔ conn W H mask seed v := by
  intro v
  constructor
  · exact hconn v
  · intro hc
    induction hc with
    | refl => exact hseedc
    | tail hab hstep ih =>
      rcases Finset.mem_union.mp (hcl _ ih _ hstep) with h | h
      · exfalso
        have hmem := hprevC _ h _ (estep_symm hstep)
        exact (Finset.disjoint_left.mp hdisj hmem) ih
      · exact h

/-- Main invariant lemma for the row-major scan: all recorded components are
well formed, their cell sets are pairwise disjoint and cover the visited set,
and every foreground pixel of the scanned range ends up visited. -/
theorem scanLoop_spec (W H : ℕ) (mask : ℕ → Bool) :
    ∀ (todo : List ℕ) (visited : Finset ℕ) (comps : List Component),
      (∀ i ∈ todo, i < W * H) →
      visited ⊆ Finset.range (W * H) →
      (∀ u ∈ visited, fg W H mask u) →
      (∀ u ∈ visited, ∀ v, estep W H mask u v → v ∈ visited) →
      (∀ c ∈ comps, c.cells ⊆ visited) →
      (∀ u ∈ visited, ∃ c ∈ comps, u ∈ c.cells) →
      (∀ c ∈ comps, CompGood W H mask c) →
      comps.Pairwise (fun c d => Disjoint c.cells d.cells) →
      ((∀ u ∈ (scanLoop W H mask todo visited comps).1, fg W H mask u) ∧
       (∀ u ∈ (scanLoop W H mask todo visited comps).1,
         ∀ v, estep W H mask u v → v ∈ (scanLoop W H mask todo visited comps).1) ∧
       (∀ c ∈ (scanLoop W H mask todo visited comps).2,
         c.cells ⊆ (scanLoop W H mask todo visited comps).1) ∧
       (∀ u ∈ (scanLoop W H mask todo visited comps).1,
         ∃ c ∈ (scanLoop W H mask todo visited comps).2, u ∈ c.cells) ∧
       (∀ c ∈ (scanLoop W H mask todo visited comps).2, CompGood W H mask c) ∧
       (scanLoop W H mask todo visited comps).2.Pairwise
         (fun c d => Disjoint c.cells d.cells) ∧
       (∀ i ∈ todo, fg W H mask i → i ∈ (scanLoop W H mask todo visited comps).1) ∧
       visited ⊆ (scanLoop W H mask todo visited comps).1 ∧
       comps <+: (scanLoop W H mask todo visited comps).2)
  | [], visited, comps => by
    intro htodo hvB hvfg hvC hsub hcover hgood hpair
    simp only [scanLoop]
    exact ⟨hvfg, hvC, hsub, hcover, hgood, hpair, by simp, fun a ha => ha,
      List.prefix_refl _⟩
  | idx :: rest, visited, comps => by
    intro htodo hvB hvfg hvC hsub hcover hgood hpair
    have hidxlt : idx < W * H := htodo idx (List.mem_cons_self _ _)
    by_cases h : mask idx = true ∧ idx ∉ visited
    · have hunfold : scanLoop W H mask (idx :: rest) visited comps
          = scanLoop W H mask rest
              (flood W H mask (W * H + 1) [idx] (insert idx visited)
                { area := 0, minX := idx % W, maxX := idx % W
                  minY := idx / W, maxY := idx / W, cells := ∅ }).1
              (comps ++ [(flood W H mask (W * H + 1) [idx] (insert idx visited)
                { area := 0, minX := idx % W, maxX := idx % W
                  minY := idx / W, maxY := idx / W, cells := ∅ }).2]) := by
        simp only [scanLoop]
        rw [if_pos h]
      have hW : 0 < W := by
        rcases Nat.eq_zero_or_pos W with h0 | h0
        · subst h0
          exact absurd hidxlt (by omega)
        · exact h0
      have hfgidx : fg W H mask idx := ⟨hidxlt, h.1⟩
      obtain ⟨c1, c2, c3, c4, c5, c6, c7, c8, c9⟩ :=
        flood_spec W H mask idx visited (W * H + 1) [idx] (insert idx visited)
          { area := 0, minX := idx % W, maxX := idx % W
            minY := idx / W, maxY := idx / W, cells := ∅ }
          (by
            have : (insert idx visited).card ≤ W * H := by
              have hsub' : insert idx visited ⊆ Finset.range (W * H) := by
                intro a ha
                rcases Finset.mem_insert.mp ha with h' | h'
                · subst h'
                  exact Finset.mem_range.mpr hidxlt
                · exact hvB h'
              have := Finset.card_le_card hsub'
              simpa using this
            have hl : ([idx] : List ℕ).length = 1 := rfl
            omega)
          (by ext a; simp [Finset.mem_insert]; tauto)
          (by
            intro a ha
            rcases Finset.mem_insert.mp ha with h' | h'
            · subst h'
              exact Finset.mem_range.mpr hidxlt
            · exact hvB h')
          (List.nodup_singleton _)
          (by
            intro i hi
            rcases List.mem_singleton.mp hi with rfl
            exact ⟨h.2, Finset.not_mem_empty _, hfgidx, Relation.ReflTransGen.refl⟩)
          (Finset.disjoint_empty_right _)
          (by simp)
          (by simp)
          (by simp)
          (by simp)
          (Nat.mod_lt _ hW)
          (by
            rw [Nat.div_lt_iff_lt_mul hW, Nat.mul_comm]
            exact hidxlt)
      rw [hunfold]
      set r := flood W H mask (W * H + 1) [idx] (insert idx visited)
        { area := 0, minX := idx % W, maxX := idx % W
          minY := idx / W, maxY := idx / W, cells := ∅ } with hr
      have hseedc : idx ∈ r.2.cells := by
        apply c2
        simp
      have hclass : ∀ v, v ∈ r.2.cells ↔ conn W H mask idx v := by
        refine cells_eq_class W H mask idx visited r.2.cells hseedc
          (fun u hu => (c3 u hu).2) ?_ c6 hvC
        intro u hu v hv
        rw [← c1]
        exact c4 u hu v hv
      have hgoodnew : CompGood W H mask r.2 :=
        ⟨⟨idx, hfgidx, hclass⟩, c5, c7, c8, c9, ⟨idx, hseedc⟩⟩
      have hr1 : r.1 = visited ∪ r.2.cells := c1
      have hvfg' : ∀ u ∈ r.1, fg W H mask u := by
        intro u hu
        rw [hr1] at hu
        rcases Finset.mem_union.mp hu with h' | h'
        · exact hvfg u h'
        · exact (c3 u h').1
      obtain ⟨d1, d2, d3, d4, d5, d6, d7, d8, d9⟩ :=
        scanLoop_spec W H mask rest r.1 (comps ++ [r.2])
          (fun i hi => htodo i (List.mem_cons_of_mem _ hi))
          (by
            intro a ha
            exact Finset.mem_range.mpr (hvfg' a ha).1)
          hvfg'
          (by
            intro u hu v hv
            rw [hr1] at hu ⊢
            rcases Finset.mem_union.mp hu with h' | h'
            · exact Finset.mem_union_left _ (hvC u h' v hv)
            · rw [← hr1]
              exact c4 u h' v hv)
          (by
            intro c hc
            rcases List.mem_append.mp hc with h' | h'
            · intro a ha
              rw [hr1]
              exact Finset.mem_union_left _ (hsub c h' ha)
            · rcases List.mem_singleton.mp h' with rfl
              rw [hr1]
              exact fun a ha => Finset.mem_union_right _ ha)
          (by
            intro u hu
            rw [hr1] at hu
            rcases Finset.mem_union.mp hu with h' | h'
            · obtain ⟨c, hc, hc2⟩ := hcover u h'
              exact ⟨c, List.mem_append_left _ hc, hc2⟩
            · exact ⟨r.2, List.mem_append_right _ (List.mem_singleton_self _), h'⟩)
          (by
            intro c hc
            rcases List.mem_append.mp hc with h' | h'
            · exact hgood c h'
            · rcases List.mem_singleton.mp h' with rfl
              exact hgoodnew)
          (by
            rw [List.pairwise_append]
            refine ⟨hpair, List.pairwise_singleton _ _, ?_⟩
            intro c hc d hd
            rcases List.mem_singleton.mp hd with rfl
            exact Finset.disjoint_of_subset_left (hsub c hc) c6)
      refine ⟨d1, d2, d3, d4, d5, d6, ?_, ?_, ?_⟩
      · intro i hi hfgi
        rcases List.mem_cons.mp hi with h' | h'
        · subst h'
          apply d8
          rw [hr1]
          exact Finset.mem_union_right _ hseedc
        · exact d7 i h' hfgi
      · intro a ha
        apply d8
        rw [hr1]
        exact Finset.mem_union_left _ ha
      · exact List.IsPrefix.trans (List.prefix_append _ _) d9
    · have hunfold : scanLoop W H mask (idx :: rest) visited comps
          = scanLoop W H mask rest visited comps := by
        simp only [scanLoop]
        rw [if_neg h]
      rw [hunfold]
      obtain ⟨d1, d2, d3, d4, d5, d6, d7, d8, d9⟩ :=
        scanLoop_spec W H mask rest visited comps
          (fun i hi => htodo i (List.mem_cons_of_mem _ hi))
          hvB hvfg hvC hsub hcover hgood hpair
      refine ⟨d1, d2, d3, d4, d5, d6, ?_, d8, d9⟩
      intro i hi hfgi
      rcases List.mem_cons.mp hi with h' | h'
      · subst h'
        rcases Decidable.not_and_iff_or_not.mp h with h'' | h''
        · exact absurd hfgi.2 h''
        · exact d8 (Decidable.not_not.mp h'')
      · exact d7 i h' hfgi

/-- Summary facts about the labeler output: every recorded component is well
formed, cell sets are pairwise disjoint, every foreground pixel lies in some
component, and every recorded cell is a foreground pixel. -/
theorem rawComponentsOf_spec (W H : ℕ) (mask : ℕ → Bool) :
    (∀ c ∈ rawComponentsOf W H mask, CompGood W H mask c) ∧
    (rawComponentsOf W H mask).Pairwise (fun c d => Disjoint c.cells d.cells) ∧
    (∀ p, fg W H mask p → ∃ c ∈ rawComponentsOf W H mask, p ∈ c.cells) ∧
    (∀ c ∈ rawComponentsOf W H mask, ∀ p ∈ c.cells, fg W H mask p) := by
  obtain ⟨d1, d2, d3, d4, d5, d6, d7, d8, d9⟩ :=
    scanLoop_spec W H mask (List.range (W * H)) ∅ []
      (fun i hi => List.mem_range.mp hi)
      (by simp)
      (by simp)
      (by simp)
      (by simp)
      (by simp)
      (by simp)
      List.Pairwise.nil
  refine ⟨d5, d6, ?_, ?_⟩
  · intro p hp
    exact d4 p (d7 p (List.mem_range.mpr hp.1) hp)
  · intro c hc p hp
    exact d1 p (d3 c hc hp)

/-- Two foreground pixels are assigned to one common component exactly when
they are connected by a chain of 4-adjacent foreground pixels. -/
theorem sameComponent_iff_conn (W H : ℕ) (mask : ℕ → Bool) (p q : ℕ)
    (hp : fg W H mask p) (_hq : fg W H mask q) :
    (∃ c ∈ rawComponentsOf W H mask, p ∈ c.cells ∧ q ∈ c.cells)
      ↔ conn W H mask p q := by
  obtain ⟨hgood, -, hcover, -⟩ := rawComponentsOf_spec W H mask
  constructor
  · rintro ⟨c, hc, hpc, hqc⟩
    obtain ⟨⟨s, -, hiff⟩, -⟩ := hgood c hc
    exact Relation.ReflTransGen.trans (conn_symm ((hiff p).mp hpc)) ((hiff q).mp hqc)
  · intro hconn
    obtain ⟨c, hc, hpc⟩ := hcover p hp
    obtain ⟨⟨s, -, hiff⟩, -⟩ := hgood c hc
    refine ⟨c, hc, hpc, ?_⟩
    exact (hiff q).mpr (Relation.ReflTransGen.trans ((hiff p).mp hpc) hconn)

/-- Cardinalities of pairwise disjoint subsets of `S` sum to at most the
cardinality of `S`. -/
theorem sum_card_le_of_pairwise_disjoint :
    ∀ (l : List (Finset ℕ)) (S : Finset ℕ),
      (∀ t ∈ l, t ⊆ S) → l.Pairwise Disjoint →
      (l.map Finset.card).sum ≤ S.card
  | [], S, _, _ => by simp
  | t :: ts, S, hsub, hp => by
    have h1 : ∀ u ∈ ts, u ⊆ S \ t := by
      intro u hu a ha
      refine Finset.mem_sdiff.mpr ⟨hsub u (List.mem_cons_of_mem _ hu) ha, ?_⟩
      intro hat
      exact (Finset.disjoint_left.mp ((List.pairwise_cons.mp hp).1 u hu) hat) ha
    have h2 := sum_card_le_of_pairwise_disjoint ts (S \ t) h1
      (List.pairwise_cons.mp hp).2
    have h3 : (S \ t).card = S.card - t.card :=
      Finset.card_sdiff (hsub t (List.mem_cons_self _ _))
    have h4 : t.card ≤ S.card :=
      Finset.card_le_card (hsub t (List.mem_cons_self _ _))
    simp only [List.map_cons, List.sum_cons]
    omega

/-- Coordinates of the linear index `y * W + x`. -/
theorem rowcol_idx (W H x y : ℕ) (hx : x < W) (hy : y < H) :
    y * W + x < W * H ∧ (y * W + x) % W = x ∧ (y * W + x) / W = y := by
  have hW : 0 < W := by omega
  refine ⟨?_, ?_, ?_⟩
  · calc y * W + x < y * W + W := by omega
      _ = (y + 1) * W := by ring
      _ ≤ H * W := Nat.mul_le_mul_right _ (by omega)
      _ = W * H := Nat.mul_comm _ _
  · rw [Nat.add_comm, Nat.add_mul_mod_self_right, Nat.mod_eq_of_lt hx]
  · rw [Nat.add_comm, Nat.add_mul_div_right _ _ hW, Nat.div_eq_of_lt hx]
    omega

/-- On an all-foreground raster, any two pixels are connected. -/
theorem conn_all_of_mask_true (W H : ℕ) (mask : ℕ → Bool) (hW : 0 < W)
    (hall : ∀ i, i < W * H → mask i = true) :
    ∀ p, p < W * H → ∀ q, q < W * H → conn W H mask p q := by
  have hfg : ∀ i, i < W * H → fg W H mask i := fun i hi => ⟨hi, hall i hi⟩
  -- step to the right neighbor inside one row
  have hstepR : ∀ y x, y < H → x + 1 < W →
      estep W H mask (y * W + x) (y * W + x + 1) := by
    intro y x hy hx
    obtain ⟨ha1, ha2, ha3⟩ := rowcol_idx W H x y (by omega) hy
    obtain ⟨hb1, hb2, hb3⟩ := rowcol_idx W H (x + 1) y hx hy
    refine ⟨hfg _ ha1, hfg _ (by omega), ?_⟩
    unfold adjacent
    rw [ha2, ha3]
    rw [show y * W + x + 1 = y * W + (x + 1) from rfl, hb2, hb3]
    omega
  -- connect the row start to any cell of the row
  have hrow : ∀ y x, y < H → x < W → conn W H mask (y * W) (y * W + x) := by
    intro y x hy
    induction x with
    | zero => intro _; exact Relation.ReflTransGen.refl
    | succ x ihx =>
      intro hx
      exact Relation.ReflTransGen.tail (ihx (by omega)) (hstepR y x hy (by omega))
  -- step down one row in column 0
  have hstepD : ∀ y, y + 1 < H → estep W H mask (y * W) ((y + 1) * W) := by
    intro y hy
    obtain ⟨ha1, ha2, ha3⟩ := rowcol_idx W H 0 y hW (by omega)
    obtain ⟨hb1, hb2, hb3⟩ := rowcol_idx W H 0 (y + 1) hW hy
    rw [Nat.add_zero] at ha1 ha2 ha3 hb1 hb2 hb3
    refine ⟨hfg _ ha1, hfg _ hb1, ?_⟩
    unfold adjacent
    rw [ha2, ha3, hb2, hb3]
    omega
  have hcol : ∀ y, y < H → conn W H mask 0 (y * W) := by
    intro y
    induction y with
    | zero =>
      intro _
      rw [Nat.zero_mul]
      exact Relation.ReflTransGen.refl
    | succ y ihy =>
      intro hy
      exact Relation.ReflTransGen.tail (ihy (by omega)) (hstepD y hy)
  have hzero : ∀ p, p < W * H → conn W H mask 0 p := by
    intro p hp
    have hx : p % W < W := Nat.mod_lt _ hW
    have hy : p / W < H := by
      rw [Nat.div_lt_iff_lt_mul hW, Nat.mul_comm]
      exact hp
    have hdecomp : p / W * W + p % W = p := by
      rw [Nat.mul_comm]
      exact Nat.div_add_mod p W
    have h1 := hcol (p / W) hy
    have h2 := hrow (p / W) (p % W) hy hx
    rw [hdecomp] at h2
    exact Relation.ReflTransGen.trans h1 h2
  intro p hp q hq
  exact Relation.ReflTransGen.trans (conn_symm (hzero p hp)) (hzero q hq)

/-- The render loop emits, in order, exactly the expanded boxes of the
components whose iteration index has a working canvas context. -/
theorem renderLoop_map_bbox (img : Img) (env : Env) :
    ∀ (l : List Component) (i : ℕ),
      (renderLoop img env l i).map (fun c => c.bbox)
        = ((List.enumFrom i l).filter (fun p => env.outCtxOk p.1)).map
            (fun p => expandedBox img p.2)
  | [], i => by simp [renderLoop]
  | c :: rest, i => by
    by_cases h : env.outCtxOk i = true
    · simp [renderLoop, List.enumFrom_cons, List.filter_cons, h,
        renderLoop_map_bbox img env rest (i + 1)]
    · simp only [Bool.not_eq_true] at h
      simp [renderLoop, List.enumFrom_cons, List.filter_cons, h,
        renderLoop_map_bbox img env rest (i + 1)]

/-- If the surviving-component list is empty the pipeline returns the empty
list (not an error). -/
theorem componentsOf_nil_output (img : Img) (env : Env) (k : ℤ)
    (h : componentsOf img env = []) : computeLeafCropsOk img env k = [] := by
  simp [computeLeafCropsOk, h]

/-- With working contexts and measurable dimensions, the output boxes are the
filtered expanded boxes of the picked components, in order. -/
theorem output_map_bbox (img : Img) (env : Env) (k : ℤ)
    (hseg : env.segCtxOk = true) (hW : srcW img ≠ 0) (hH : srcH img ≠ 0) :
    (computeLeafCropsOk img env k).map (fun c => c.bbox)
      = ((List.enumFrom 0 (picked img env k)).filter (fun p => env.outCtxOk p.1)).map
          (fun p => expandedBox img p.2) := by
  unfold computeLeafCropsOk
  rw [if_neg (by tauto), if_neg (by simp [hseg])]
  by_cases hc : componentsOf img env = []
  · rw [if_pos hc]
    have hp : picked img env k = [] := by
      unfold picked sortedComponents
      rw [hc]
      simp
    rw [hp]
    simp
  · rw [if_neg hc]
    exact renderLoop_map_bbox img env _ 0

/-- The zero-dimension image yields no components at all. -/
theorem componentsOf_img0 (env : Env) : componentsOf img0 env = [] := by
  unfold componentsOf rawComponents rawComponentsOf
  rw [show targetW img0 = 0 from rfl, Nat.zero_mul]
  simp [scanLoop]

/-- C1 (amended): the classifier returns background exactly when `g < 50`, or
`g < r + 20`, or `g < b + 15`, or `r + g + b < 120`; the comparisons with the
offsets are strict, so a pixel with `g` exactly `r + 20` (or `b + 15`) that
passes the remaining checks is accepted, not rejected. -/
theorem claim1_amended (r g b : ℕ) (_hr : r ≤ 255) (_hg : g ≤ 255) (_hb : b ≤ 255) :
    isLikelyGreen r g b = false
      ↔ (g < 50 ∨ g < r + 20 ∨ g < b + 15 ∨ r + g + b < 120) := by
  unfold isLikelyGreen
  split_ifs with h1 h2 h3 h4 <;> simp <;> omega

/-- C1 (counterexample): at `(r, g, b) = (100, 120, 100)` we have
`g = r + 20`, so the claimed classification rule (reject when `g ≤ r + 20`)
says background, but the classifier accepts the pixel — the claimed
equivalence is false at this input. -/
theorem claim1_counterexample :
    ¬ (isLikelyGreen 100 120 100 = false
        ↔ ((120 : ℕ) < 50 ∨ (120 : ℕ) ≤ 100 + 20 ∨ (120 : ℕ) ≤ 100 + 15
            ∨ (100 : ℕ) + 120 + 100 < 120)) := by
  decide

/-- C1 (witness): the amended equivalence applied at `(0, 200, 0)`. -/
theorem claim1_witness :
    ((0 : ℕ) ≤ 255 ∧ (200 : ℕ) ≤ 255) ∧
      (isLikelyGreen 0 200 0 = false
        ↔ ((200 : ℕ) < 50 ∨ (200 : ℕ) < 0 + 20 ∨ (200 : ℕ) < 0 + 15
            ∨ (0 : ℕ) + 200 + 0 < 120)) :=
  ⟨⟨by decide, by decide⟩, claim1_amended 0 200 0 (by decide) (by decide) (by decide)⟩

/-- C2: decode failure is the only exception surfaced to the caller; zero
dimensions, a failed top-level context, and an empty surviving-component list
each give a normal empty return; and with the dimension and top-level context
guards passed, the output consists of exactly the expanded boxes of those
picked components whose iteration has a working context — a per-component
context failure only skips that component. -/
theorem claim2_failure_behavior :
    (∀ (e : String) (env : Env) (k : ℤ), computeLeafCrops (.error e) env k = .error e) ∧
    (∀ (img : Img) (env : Env) (k : ℤ),
      computeLeafCrops (.ok img) env k = .ok (computeLeafCropsOk img env k)) ∧
    (∀ (img : Img) (env : Env) (k : ℤ), srcW img = 0 ∨ srcH img = 0 →
      computeLeafCropsOk img env k = []) ∧
    (∀ (img : Img) (env : Env) (k : ℤ), env.segCtxOk = false →
      computeLeafCropsOk img env k = []) ∧
    (∀ (img : Img) (env : Env) (k : ℤ), componentsOf img env = [] →
      computeLeafCropsOk img env k = []) ∧
    (∀ (img : Img) (env : Env) (k : ℤ), env.segCtxOk = true →
      srcW img ≠ 0 → srcH img ≠ 0 →
      (computeLeafCropsOk img env k).map (fun c => c.bbox)
        = ((List.enumFrom 0 (picked img env k)).filter
            (fun p => env.outCtxOk p.1)).map (fun p => expandedBox img p.2)) := by
  refine ⟨fun e env k => rfl, fun img env k => rfl, ?_, ?_, ?_, ?_⟩
  · intro img env k h
    simp [computeLeafCropsOk, h]
  · intro img env k h
    simp [computeLeafCropsOk, h]
  · intro img env k h
    exact componentsOf_nil_output img env k h
  · intro img env k hseg hW hH
    exact output_map_bbox img env k hseg hW hH

/-- C2 (witness): a decode failure propagates; a zero-dimension image returns
the empty list. -/
theorem claim2_witness :
    computeLeafCrops (.error "decode failed") env0 3 = .error "decode failed" ∧
      (srcW img0 = 0 ∨ srcH img0 = 0) ∧
      computeLeafCropsOk img0 env0 3 = [] :=
  ⟨claim2_failure_behavior.1 "decode failed" env0 3, Or.inl rfl,
    claim2_failure_behavior.2.2.1 img0 env0 3 (Or.inl rfl)⟩

/-- Every rendered crop has its box produced by `expandedBox`, hence inside
the source frame. -/
theorem renderLoop_forall_within (img : Img) (env : Env)
    (hW : srcW img ≠ 0) (hH : srcH img ≠ 0) :
    ∀ (l : List Component) (i : ℕ),
      (renderLoop img env l i).Forall
        (fun c => bboxWithin ((srcW img : ℤ)) ((srcH img : ℤ)) c.bbox)
  | [], _ => trivial
  | c :: rest, i => by
    unfold renderLoop
    by_cases h : env.outCtxOk i = true
    · rw [if_pos h, List.forall_cons]
      refine ⟨?_, renderLoop_forall_within img env hW hH rest (i + 1)⟩
      exact expandBBox_within (bboxSrc img c) (1.2 : ℚ)
        (by exact_mod_cast Nat.one_le_iff_ne_zero.mpr hW)
        (by exact_mod_cast Nat.one_le_iff_ne_zero.mpr hH)
    · rw [if_neg h]
      exact renderLoop_forall_within img env hW hH rest (i + 1)

/-- C3: every output bounding box `b` satisfies `0 ≤ x`, `0 ≤ y`,
`x + w ≤ srcW`, `y + h ≤ srcH`, `w ≥ 1` and `h ≥ 1` — the 1.2× expansion and
clamping never leave the source frame or produce an empty dimension. -/
theorem claim3_containment (img : Img) (env : Env) (maxLeaves : ℤ) :
    (computeLeafCropsOk img env maxLeaves).Forall
      (fun c => bboxWithin ((srcW img : ℤ)) ((srcH img : ℤ)) c.bbox) := by
  unfold computeLeafCropsOk
  by_cases h1 : srcW img = 0 ∨ srcH img = 0
  · rw [if_pos h1]
    trivial
  · rw [if_neg h1]
    push_neg at h1
    by_cases h2 : env.segCtxOk = false
    · rw [if_pos h2]
      trivial
    · rw [if_neg h2]
      by_cases h3 : componentsOf img env = []
      · rw [if_pos h3]
        trivial
      · rw [if_neg h3]
        exact renderLoop_forall_within img env h1.1 h1.2 _ 0

/-- C6: a labeled component is kept exactly when its area reaches
`max(200, round(0.01 × targetW × targetH))`, and if nothing survives the
filter the pipeline returns the empty list rather than failing. -/
theorem claim6_noise_floor (img : Img) (env : Env) (k : ℤ) :
    (∀ c, c ∈ componentsOf img env ↔
      (c ∈ rawComponents img env ∧
        max 200 (jsRound ((targetW img * targetH img : ℕ) * (0.01 : ℚ))).toNat
          ≤ c.area)) ∧
    (componentsOf img env = [] → computeLeafCropsOk img env k = []) := by
  constructor
  · intro c
    unfold componentsOf minArea
    rw [List.mem_filter]
    simp
  · exact componentsOf_nil_output img env k

/-- C6 (witness): on a zero-dimension image no component survives and the
output is empty. -/
theorem claim6_witness :
    componentsOf img0 env0 = [] ∧ computeLeafCropsOk img0 env0 7 = [] :=
  ⟨componentsOf_img0 env0, (claim6_noise_floor img0 env0 7).2 (componentsOf_img0 env0)⟩

/-- C10: for any box with positive extent and any expansion factor at least 1,
`expandBBox` keeps every integer point of the box that lies inside the frame:
expansion plus clamping never discards an in-bounds part of the region. -/
theorem claim10_expansion_contains (bb : BBoxI) (factor : ℚ) (maxW maxH : ℤ)
    (_hw : 1 ≤ bb.w) (_hh : 1 ≤ bb.h) (hf : 1 ≤ factor) (px py : ℤ)
    (hx1 : bb.x ≤ px) (hx2 : px < bb.x + bb.w) (hx3 : 0 ≤ px) (hx4 : px < maxW)
    (hy1 : bb.y ≤ py) (hy2 : py < bb.y + bb.h) (hy3 : 0 ≤ py) (hy4 : py < maxH) :
    (expandBBox bb factor maxW maxH).x ≤ px ∧
      px < (expandBBox bb factor maxW maxH).x + (expandBBox bb factor maxW maxH).w ∧
      (expandBBox bb factor maxW maxH).y ≤ py ∧
      py < (expandBBox bb factor maxW maxH).y + (expandBBox bb factor maxW maxH).h :=
  expandBBox_contains bb factor maxW maxH hf px py hx1 hx2 hx3 hx4 hy1 hy2 hy3 hy4

/-- C10 (witness): the containment applied to the unit-offset point of a
2 × 2 box at the origin in a 10 × 10 frame with factor 1.2. -/
theorem claim10_witness :
    ((1 : ℤ) ≤ (⟨0, 0, 2, 2⟩ : BBoxI).w ∧ (1 : ℚ) ≤ (1.2 : ℚ)) ∧
      ((expandBBox ⟨0, 0, 2, 2⟩ (1.2 : ℚ) 10 10).x ≤ 1 ∧
        1 < (expandBBox ⟨0, 0, 2, 2⟩ (1.2 : ℚ) 10 10).x
            + (expandBBox ⟨0, 0, 2, 2⟩ (1.2 : ℚ) 10 10).w ∧
        (expandBBox ⟨0, 0, 2, 2⟩ (1.2 : ℚ) 10 10).y ≤ 1 ∧
        1 < (expandBBox ⟨0, 0, 2, 2⟩ (1.2 : ℚ) 10 10).y
            + (expandBBox ⟨0, 0, 2, 2⟩ (1.2 : ℚ) 10 10).h) :=
  ⟨⟨by decide, by norm_num⟩,
    claim10_expansion_contains ⟨0, 0, 2, 2⟩ (1.2 : ℚ) 10 10 (by decide) (by decide)
      (by norm_num) 1 1 (by decide) (by decide) (by decide) (by decide)
      (by decide) (by decide) (by decide) (by decide)⟩

/-- C7: during labeling every pixel is assigned to at most one component (the
cell sets are pairwise disjoint), each area counter equals the exact number of
cells of its component, and the areas sum to at most the number of mask pixels
set to 1. -/
theorem claim7_area_accounting (W H : ℕ) (mask : ℕ → Bool) :
    (rawComponentsOf W H mask).Pairwise (fun c d => Disjoint c.cells d.cells) ∧
    (∀ c ∈ rawComponentsOf W H mask, c.area = c.cells.card) ∧
    ((rawComponentsOf W H mask).map (fun c => c.area)).sum
      ≤ ((Finset.range (W * H)).filter (fun i => mask i = true)).card := by
  obtain ⟨hgood, hpair, -, hfgc⟩ := rawComponentsOf_spec W H mask
  refine ⟨hpair, fun c hc => (hgood c hc).2.1, ?_⟩
  have h1 : (rawComponentsOf W H mask).map (fun c => c.area)
      = ((rawComponentsOf W H mask).map (fun c => c.cells)).map Finset.card := by
    rw [List.map_map]
    exact List.map_congr_left (fun c hc => (hgood c hc).2.1)
  rw [h1]
  apply sum_card_le_of_pairwise_disjoint
  · intro t ht
    obtain ⟨c, hc, rfl⟩ := List.mem_map.mp ht
    intro p hp
    have hfgp := hfgc c hc p hp
    exact Finset.mem_filter.mpr ⟨Finset.mem_range.mpr hfgp.1, hfgp.2⟩
  · exact hpair.map _ (fun _ _ h => h)

/-- C7 (witness): the area bound instantiated on a 2 × 1 all-true mask. -/
theorem claim7_witness :
    ((rawComponentsOf 2 1 (fun _ => true)).map (fun c => c.area)).sum
      ≤ ((Finset.range (2 * 1)).filter (fun i => (fun _ : ℕ => true) i = true)).card :=
  (claim7_area_accounting 2 1 (fun _ => true)).2.2

/-- C9: whenever the downscaled raster has fewer than 200 pixels, no component
can reach the fixed floor of the noise filter, so the output is empty
regardless of the pixel contents. -/
theorem claim9_small_raster (img : Img) (env : Env) (k : ℤ)
    (h : targetW img * targetH img < 200) :
    computeLeafCropsOk img env k = [] := by
  apply componentsOf_nil_output
  unfold componentsOf
  rw [List.filter_eq_nil_iff]
  intro c hc
  simp only [decide_eq_true_eq]
  obtain ⟨hgood, -, -, hfgc⟩ :=
    rawComponentsOf_spec (targetW img) (targetH img) (maskOf img env)
  have hcard : c.area = c.cells.card := (hgood c hc).2.1
  have hsub : c.cells ⊆ Finset.range (targetW img * targetH img) := by
    intro p hp
    exact Finset.mem_range.mpr (hfgc c hc p hp).1
  have hle := Finset.card_le_card hsub
  rw [Finset.card_range] at hle
  have h200 : 200 ≤ minArea img := le_max_left _ _
  unfold rawComponents at hc
  omega

/-- C9 (witness): a 10 × 10 image has a 100-pixel raster, under the floor. -/
theorem claim9_witness :
    targetW img10 * targetH img10 < 200 ∧ computeLeafCropsOk img10 env0 2 = [] := by
  have hW : targetW img10 = 10 := rfl
  have hH : targetH img10 = 10 := by
    unfold targetH scale
    rw [show targetW img10 = 10 from rfl, show srcW img10 = 10 from rfl,
      show srcH img10 = 10 from rfl]
    unfold jsRound
    norm_num
    decide
  have h : targetW img10 * targetH img10 < 200 := by
    rw [hW, hH]
    decide
  exact ⟨h, claim9_small_raster img10 env0 2 h⟩

/-- The descending-area comparator is transitive. -/
theorem areaLE_trans (a b c : Component)
    (h1 : decide (b.area ≤ a.area) = true) (h2 : decide (c.area ≤ b.area) = true) :
    decide (c.area ≤ a.area) = true := by
  simp only [decide_eq_true_eq] at h1 h2 ⊢
  omega

/-- The descending-area comparator is total. -/
theorem areaLE_total (a b : Component) :
    (decide (b.area ≤ a.area) || decide (a.area ≤ b.area)) = true := by
  rcases Nat.le_total b.area a.area with h | h <;> simp [h]

/-- The sort output is pairwise nonincreasing in area. -/
theorem sortedComponents_pairwise (img : Img) (env : Env) :
    (sortedComponents img env).Pairwise (fun a b => b.area ≤ a.area) := by
  have h := List.sorted_mergeSort areaLE_trans areaLE_total (componentsOf img env)
  exact h.imp (by simp)

/-- The stable sort preserves, elementwise, every fixed-area fiber of the
input list. -/
theorem sortedComponents_filter_area (img : Img) (env : Env) (a : ℕ) :
    (sortedComponents img env).filter (fun c => decide (c.area = a))
      = (componentsOf img env).filter (fun c => decide (c.area = a)) := by
  have hmemarea : ∀ x ∈ (componentsOf img env).filter (fun c => decide (c.area = a)),
      x.area = a := by
    intro x hx
    have := (List.mem_filter.mp hx).2
    simpa using this
  have hpw : ((componentsOf img env).filter (fun c => decide (c.area = a))).Pairwise
      (fun x y => decide (y.area ≤ x.area) = true) := by
    apply List.pairwise_of_forall_mem_list
    intro x hx y hy
    simp [hmemarea x hx, hmemarea y hy]
  have hsub : List.Sublist ((componentsOf img env).filter (fun c => decide (c.area = a)))
      (sortedComponents img env) :=
    List.sublist_mergeSort areaLE_trans areaLE_total hpw (List.filter_sublist _)
  have hsub2 : List.Sublist ((componentsOf img env).filter (fun c => decide (c.area = a)))
      ((sortedComponents img env).filter (fun c => decide (c.area = a))) := by
    have h1 := hsub.filter (fun c => decide (c.area = a))
    rwa [List.filter_eq_self.mpr (fun x hx => (List.mem_filter.mp hx).2)] at h1
  have hlen : ((sortedComponents img env).filter (fun c => decide (c.area = a))).length
      = ((componentsOf img env).filter (fun c => decide (c.area = a))).length :=
    ((List.mergeSort_perm (componentsOf img env) _).filter _).length_eq
  exact (hsub2.eq_of_length hlen.symm).symm

/-- C4: with the browser drawing facilities available, the output lists the
picked components in order (largest area first, stably); its length is the
minimum of the number of surviving components and `max(1, maxLeaves)`; and the
equal-area fibers of the picked list form a prefix of the corresponding fibers
of the discovery-ordered surviving list. -/
theorem claim4_ranking_and_length (img : Img) (env : Env) (k : ℤ)
    (hseg : env.segCtxOk = true) (hout : ∀ i, env.outCtxOk i = true)
    (hW : srcW img ≠ 0) (hH : srcH img ≠ 0) :
    (computeLeafCropsOk img env k).map (fun c => c.bbox)
        = (picked img env k).map (fun c => expandedBox img c) ∧
    (picked img env k).Pairwise (fun a b => b.area ≤ a.area) ∧
    (computeLeafCropsOk img env k).length
        = min (componentsOf img env).length (max 1 k).toNat ∧
    (∀ a : ℕ, (picked img env k).filter (fun c => decide (c.area = a))
        <+: (componentsOf img env).filter (fun c => decide (c.area = a))) := by
  have hmap : (computeLeafCropsOk img env k).map (fun c => c.bbox)
      = (picked img env k).map (fun c => expandedBox img c) := by
    rw [output_map_bbox img env k hseg hW hH,
      List.filter_eq_self.mpr (fun p _ => hout p.1)]
    rw [show (fun p : ℕ × Component => expandedBox img p.2)
        = (fun c => expandedBox img c) ∘ Prod.snd from rfl, ← List.map_map]
    simp
  refine ⟨hmap, ?_, ?_, ?_⟩
  · exact (sortedComponents_pairwise img env).sublist (List.take_sublist _ _)
  · have h1 : (computeLeafCropsOk img env k).length
        = ((computeLeafCropsOk img env k).map (fun c => c.bbox)).length :=
      (List.length_map _ _).symm
    rw [h1, hmap, List.length_map]
    unfold picked
    rw [List.length_take]
    unfold sortedComponents
    rw [List.length_mergeSort, Nat.min_comm]
  · intro a
    have hpref : (picked img env k).filter (fun c => decide (c.area = a))
        <+: (sortedComponents img env).filter (fun c => decide (c.area = a)) := by
      unfold picked
      refine ⟨((sortedComponents img env).drop (max 1 k).toNat).filter
        (fun c => decide (c.area = a)), ?_⟩
      rw [← List.filter_append, List.take_append_drop]
    rwa [sortedComponents_filter_area img env a] at hpref

/-- C4 (witness): the ranking and length statement applied to the 10 × 10
black image in the benign environment. -/
theorem claim4_witness :
    (env0.segCtxOk = true ∧ srcW img10 ≠ 0 ∧ srcH img10 ≠ 0) ∧
      (computeLeafCropsOk img10 env0 3).length
        = min (componentsOf img10 env0).length (max 1 (3 : ℤ)).toNat :=
  ⟨⟨rfl, by decide, by decide⟩,
    (claim4_ranking_and_length img10 env0 3 rfl (fun _ => rfl)
      (by decide) (by decide)).2.2.1⟩

/-- The last pixel of row `r` and the first pixel of row `r + 1` have
consecutive linear indices but are not 4-adjacent (for `W ≥ 2`). -/
theorem wrap_pair_not_adjacent (W H r : ℕ) (hW : 2 ≤ W) (hr : r + 1 < H) :
    ¬ adjacent W (r * W + (W - 1)) ((r + 1) * W) := by
  obtain ⟨ha1, ha2, ha3⟩ := rowcol_idx W H (W - 1) r (by omega) (by omega)
  obtain ⟨hb1, hb2, hb3⟩ := rowcol_idx W H 0 (r + 1) (by omega) hr
  rw [Nat.add_zero] at hb1 hb2 hb3
  unfold adjacent
  rw [ha2, ha3, hb2, hb3]
  omega

/-- If the mask holds exactly the wrap-around pair, the labeler puts the two
pixels into different components. -/
theorem wrap_pair_not_same_component (W H r : ℕ) (mask : ℕ → Bool)
    (hW : 2 ≤ W) (hr : r + 1 < H)
    (hma : mask (r * W + (W - 1)) = true) (hmb : mask ((r + 1) * W) = true)
    (honly : ∀ i, mask i = true → i = r * W + (W - 1) ∨ i = (r + 1) * W) :
    ¬ ∃ c ∈ rawComponentsOf W H mask,
        r * W + (W - 1) ∈ c.cells ∧ (r + 1) * W ∈ c.cells := by
  obtain ⟨ha1, -, -⟩ := rowcol_idx W H (W - 1) r (by omega) (by omega)
  obtain ⟨hb1, -, -⟩ := rowcol_idx W H 0 (r + 1) (by omega) hr
  rw [Nat.add_zero] at hb1
  have hfa : fg W H mask (r * W + (W - 1)) := ⟨ha1, hma⟩
  have hfb : fg W H mask ((r + 1) * W) := ⟨hb1, hmb⟩
  have hne : r * W + (W - 1) ≠ (r + 1) * W := by
    have : (r + 1) * W = r * W + W := by ring
    omega
  intro hex
  have hconn := (sameComponent_iff_conn W H mask _ _ hfa hfb).mp hex
  rcases Relation.ReflTransGen.cases_head hconn with heq | ⟨v, hstep, -⟩
  · exact hne heq
  · rcases honly v hstep.2.1.2 with rfl | rfl
    · exact adjacent_irrefl W _ hstep.2.2
    · exact wrap_pair_not_adjacent W H r hW hr hstep.2.2

/-- C5: two foreground pixels land in one common component exactly when a
chain of 4-adjacent foreground pixels joins them; the rightmost pixel of a row
and the leftmost pixel of the next row are not 4-adjacent despite consecutive
linear indices, and when they are the only mask pixels they end up in
different components. -/
theorem claim5_connectivity :
    (∀ (W H : ℕ) (mask : ℕ → Bool) (p q : ℕ), fg W H mask p → fg W H mask q →
      ((∃ c ∈ rawComponentsOf W H mask, p ∈ c.cells ∧ q ∈ c.cells)
        ↔ conn W H mask p q)) ∧
    (∀ (W H r : ℕ), 2 ≤ W → r + 1 < H →
      ¬ adjacent W (r * W + (W - 1)) ((r + 1) * W)) ∧
    (∀ (W H r : ℕ) (mask : ℕ → Bool), 2 ≤ W → r + 1 < H →
      mask (r * W + (W - 1)) = true → mask ((r + 1) * W) = true →
      (∀ i, mask i = true → i = r * W + (W - 1) ∨ i = (r + 1) * W) →
      ¬ ∃ c ∈ rawComponentsOf W H mask,
          r * W + (W - 1) ∈ c.cells ∧ (r + 1) * W ∈ c.cells) :=
  ⟨fun W H mask p q hp hq => sameComponent_iff_conn W H mask p q hp hq,
    fun W H r hW hr => wrap_pair_not_adjacent W H r hW hr,
    fun W H r mask hW hr hma hmb honly =>
      wrap_pair_not_same_component W H r mask hW hr hma hmb honly⟩

/-- C5 (witness): the equivalence applied to the two pixels of a 2 × 1
all-true mask. -/
theorem claim5_witness :
    fg 2 1 (fun i => decide (i < 2)) 0 ∧ fg 2 1 (fun i => decide (i < 2)) 1 ∧
      ((∃ c ∈ rawComponentsOf 2 1 (fun i => decide (i < 2)), 0 ∈ c.cells ∧ 1 ∈ c.cells)
        ↔ conn 2 1 (fun i => decide (i < 2)) 0 1) :=
  ⟨⟨by decide, rfl⟩, ⟨by decide, rfl⟩,
    claim5_connectivity.1 2 1 (fun i => decide (i < 2)) 0 1
      ⟨by decide, rfl⟩ ⟨by decide, rfl⟩⟩

/-- On an all-foreground raster the labeler finds exactly one component, whose
cells are the whole raster and whose bounding box is the full frame. -/
theorem rawComponentsOf_all_true (W H : ℕ) (mask : ℕ → Bool)
    (hW : 0 < W) (hH : 0 < H) (hall : ∀ i, i < W * H → mask i = true) :
    ∃ c : Component, rawComponentsOf W H mask = [c] ∧
      (∀ v, v ∈ c.cells ↔ v < W * H) ∧ c.area = W * H ∧
      c.minX = 0 ∧ c.minY = 0 ∧ c.maxX = W - 1 ∧ c.maxY = H - 1 := by
  obtain ⟨hgood, hpair, hcover, hfgc⟩ := rawComponentsOf_spec W H mask
  have hconn := conn_all_of_mask_true W H mask hW hall
  have hpos : 0 < W * H := Nat.mul_pos hW hH
  have hfg0 : fg W H mask 0 := ⟨hpos, hall 0 hpos⟩
  obtain ⟨c, hc, h0c⟩ := hcover 0 hfg0
  have hfull : ∀ d ∈ rawComponentsOf W H mask, ∀ v, v < W * H → v ∈ d.cells := by
    intro d hd v hv
    obtain ⟨⟨s, hsfg, hiff⟩, -⟩ := hgood d hd
    exact (hiff v).mpr (hconn s hsfg.1 v hv)
  have hcells : ∀ v, v ∈ c.cells ↔ v < W * H :=
    fun v => ⟨fun hv => (hfgc c hc v hv).1, fun hv => hfull c hc v hv⟩
  have hsingle : rawComponentsOf W H mask = [c] := by
    rcases hraw : rawComponentsOf W H mask with _ | ⟨c1, tl⟩
    · rw [hraw] at hc
      cases hc
    · rcases tl with _ | ⟨c2, tl2⟩
      · rw [hraw] at hc
        have hcc : c = c1 := by simpa using hc
        rw [hcc]
      · exfalso
        rw [hraw] at hpair hfull
        have hd12 : Disjoint c1.cells c2.cells :=
          (List.pairwise_cons.mp hpair).1 c2 (List.mem_cons_self _ _)
        have h1 : (0 : ℕ) ∈ c1.cells := hfull c1 (by simp) 0 hpos
        have h2 : (0 : ℕ) ∈ c2.cells := hfull c2 (by simp) 0 hpos
        exact Finset.disjoint_left.mp hd12 h1 h2
  obtain ⟨-, harea, hbnd, hbX, hbY, -⟩ := hgood c hc
  have hcellsR : c.cells = Finset.range (W * H) := by
    ext v
    rw [Finset.mem_range]
    exact hcells v
  have harea' : c.area = W * H := by
    rw [harea, hcellsR, Finset.card_range]
  obtain ⟨hx1, hx2, hx3⟩ := rowcol_idx W H (W - 1) 0 (by omega) hH
  rw [Nat.zero_mul, Nat.zero_add] at hx1 hx2 hx3
  obtain ⟨hy1, hy2, hy3⟩ := rowcol_idx W H 0 (H - 1) hW (by omega)
  rw [Nat.add_zero] at hy1 hy2 hy3
  have hb0 := hbnd 0 ((hcells 0).mpr hpos)
  have hbx := hbnd (W - 1) ((hcells _).mpr hx1)
  have hby := hbnd ((H - 1) * W) ((hcells _).mpr hy1)
  refine ⟨c, hsingle, hcells, harea', ?_, ?_, ?_, ?_⟩
  · have h1 := hb0.1
    rw [Nat.zero_mod] at h1
    omega
  · have h1 := hb0.2.2.1
    rw [Nat.zero_div] at h1
    omega
  · have h1 := hbx.2.1
    rw [hx2] at h1
    omega
  · have h1 := hby.2.2.2
    rw [hy3] at h1
    omega

/-- The 100 × 100 image keeps its height through the downscaler. -/
theorem targetH_img100 : targetH img100 = 100 := by
  unfold targetH scale
  rw [show targetW img100 = 100 from rfl, show srcW img100 = 100 from rfl,
    show srcH img100 = 100 from rfl]
  unfold jsRound
  norm_num
  decide

/-- A uniformly green pixel buffer makes the whole mask foreground. -/
theorem maskOf_img100 (env : Env)
    (hpx : ∀ i, i < 100 * 100 → env.pixel 100 100 i = (0, 200, 0)) :
    ∀ i, i < targetW img100 * targetH img100 → maskOf img100 env i = true := by
  intro i hi
  unfold maskOf
  rw [show targetW img100 = 100 from rfl, targetH_img100] at hi ⊢
  rw [hpx i hi]
  simp [hi]
  decide

/-- On the uniformly green 100 × 100 image exactly one component survives,
covering the whole downscaled raster. -/
theorem components_img100 (env : Env)
    (hpx : ∀ i, i < 100 * 100 → env.pixel 100 100 i = (0, 200, 0)) :
    ∃ c : Component, componentsOf img100 env = [c] ∧
      (∀ v, v ∈ c.cells ↔ v < 10000) ∧ c.area = 10000 ∧
      c.minX = 0 ∧ c.minY = 0 ∧ c.maxX = 99 ∧ c.maxY = 99 := by
  have hWH : targetW img100 * targetH img100 = 10000 := by
    rw [show targetW img100 = 100 from rfl, targetH_img100]
  obtain ⟨c, hraw, hcells, harea, hminX, hminY, hmaxX, hmaxY⟩ :=
    rawComponentsOf_all_true (targetW img100) (targetH img100) (maskOf img100 env)
      (by rw [show targetW img100 = 100 from rfl]; norm_num)
      (by rw [targetH_img100]; norm_num)
      (maskOf_img100 env hpx)
  have hminA : minArea img100 = 200 := by
    unfold minArea
    rw [hWH]
    unfold jsRound
    norm_num
  refine ⟨c, ?_, ?_, ?_, hminX, hminY, ?_, ?_⟩
  · unfold componentsOf rawComponents
    rw [hraw, List.filter_cons]
    have hkeep : decide (minArea img100 ≤ c.area) = true := by
      rw [hminA, harea, hWH]
      decide
    rw [hkeep]
    simp
  · intro v
    rw [hcells v, hWH]
  · rw [harea, hWH]
  · rw [hmaxX, show targetW img100 = 100 from rfl]
  · rw [hmaxY, targetH_img100]

/-- The full-frame box of the 100 × 100 image expands and clamps back to the
full frame. -/
theorem expandedBox_img100 (c : Component)
    (hminX : c.minX = 0) (hminY : c.minY = 0)
    (hmaxX : c.maxX = 99) (hmaxY : c.maxY = 99) :
    expandedBox img100 c = ⟨0, 0, 100, 100⟩ := by
  have hscale : scale img100 = 1 := by
    unfold scale
    rw [show targetW img100 = 100 from rfl, show srcW img100 = 100 from rfl]
    norm_num
  unfold expandedBox expandBBox bboxSrc bboxSmall clamp jsRound
  rw [hminX, hminY, hmaxX, hmaxY, hscale,
    show srcW img100 = 100 from rfl, show srcH img100 = 100 from rfl]
  norm_num

/-- C8: on a 100 × 100 uniformly strong-green image the pipeline finds exactly
one surviving component spanning the whole downscaled frame, and the single
output box, after the 1.2× expansion and clamping, is exactly the full source
frame `{x: 0, y: 0, w: 100, h: 100}`. -/
theorem claim8_full_frame (env : Env) (k : ℤ)
    (hpx : ∀ i, i < 100 * 100 → env.pixel 100 100 i = (0, 200, 0))
    (hseg : env.segCtxOk = true) (hout : env.outCtxOk 0 = true) :
    (componentsOf img100 env).map (fun c => (c.area, c.minX, c.minY, c.maxX, c.maxY))
        = [(10000, 0, 0, 99, 99)] ∧
      (computeLeafCropsOk img100 env k).map (fun c => c.bbox)
        = [({ x := 0, y := 0, w := 100, h := 100 } : BBoxI)] := by
  obtain ⟨c, hcomp, hcells, harea, hminX, hminY, hmaxX, hmaxY⟩ :=
    components_img100 env hpx
  constructor
  · rw [hcomp]
    simp [harea, hminX, hminY, hmaxX, hmaxY]
  · unfold computeLeafCropsOk
    rw [if_neg (by simp [show srcW img100 = 100 from rfl,
        show srcH img100 = 100 from rfl])]
    rw [if_neg (by simp [hseg])]
    rw [if_neg (by rw [hcomp]; simp)]
    have hpicked : picked img100 env k = [c] := by
      unfold picked sortedComponents
      rw [hcomp, List.mergeSort_singleton]
      apply List.take_of_length_le
      have h1 : (1 : ℤ) ≤ max 1 k := le_max_left _ _
      have h2 : 1 ≤ (max 1 k).toNat := by omega
      simp only [List.length_singleton]
      exact h2
    rw [hpicked]
    unfold renderLoop
    rw [if_pos hout]
    rw [expandedBox_img100 c hminX hminY hmaxX hmaxY]
    simp [renderLoop]

/-- C8 (witness): the statement applied in the uniformly green environment. -/
theorem claim8_witness :
    (componentsOf img100 envGreen).map (fun c => (c.area, c.minX, c.minY, c.maxX, c.maxY))
        = [(10000, 0, 0, 99, 99)] ∧
      (computeLeafCropsOk img100 envGreen 1).map (fun c => c.bbox)
        = [({ x := 0, y := 0, w := 100, h := 100 } : BBoxI)] :=
  claim8_full_frame envGreen 1 (fun _ _ => rfl) rfl rfl

end LeafCrops
